import Mathlib

/-!
# Verification of the warmwalrus file-processing pipeline

A shallow embedding of the `warmwalrus` Python package: the marker-extraction
engine, the processing strategies (`file_renamer`, `claude_url`,
`newline_padding`), the strategy registry resolution policy, the file
processor (`needs_processing` / `process_file`), the file finder, and the age
parser.  Python strings are modelled as `List Char` (LF line endings), Python
floats as exact rationals, and the filesystem as an association list from
paths to contents together with an association list of modification times.
-/

/-- Python `str` modelled as a list of characters. -/
abbrev Str := List Char

/-- Lift a Lean string literal into the model. -/
def lit (s : String) : Str := s.data

/-- The characters Python's `str.strip()` and the regex class `\s` treat as
whitespace (ASCII fragment). -/
def isSpacePy (c : Char) : Bool :=
  c = ' ' || c = '\t' || c = '\n' || c = '\r' || c = '\x0b' || c = '\x0c'

/-- Python `str.strip()`: remove leading and trailing whitespace. -/
def pstrip (s : Str) : Str :=
  ((s.dropWhile isSpacePy).reverse.dropWhile isSpacePy).reverse

/-- Python `str.rstrip()`: remove trailing whitespace. -/
def prstrip (s : Str) : Str :=
  (s.reverse.dropWhile isSpacePy).reverse

/-- Python `str.lower()` (ASCII fragment). -/
def lowerStr (s : Str) : Str := s.map Char.toLower

/-- Python's `needle in hay` substring test. -/
def strContains (hay needle : Str) : Bool :=
  match hay with
  | [] => needle.isPrefixOf ([] : Str)
  | _ :: rest => needle.isPrefixOf hay || strContains rest needle

/-- Python `str.splitlines(keepends=True)`, with `\n` as the line
terminator: each line keeps its trailing newline; a final fragment without
a newline is its own line; the empty string yields no lines.
`acc` is the reversed accumulator for the current line. -/
def splitKeepAux (acc : Str) : Str → List Str
  | [] => if acc = [] then [] else [acc.reverse]
  | c :: rest =>
    if c = '\n' then (acc.reverse ++ ['\n']) :: splitKeepAux [] rest
    else splitKeepAux (c :: acc) rest

/-- Python `content.splitlines(keepends=True)` (LF line endings). -/
def splitlinesKeepends (s : Str) : List Str := splitKeepAux [] s

/-- Helper for `splitlines` without keepends. -/
def splitNoKeepAux (acc : Str) : Str → List Str
  | [] => if acc = [] then [] else [acc.reverse]
  | c :: rest =>
    if c = '\n' then acc.reverse :: splitNoKeepAux [] rest
    else splitNoKeepAux (c :: acc) rest

/-- Python `content.splitlines()` (LF line endings). -/
def splitlines (s : Str) : List Str := splitNoKeepAux [] s

/-- `FileProcessor.START_MARKERS`. -/
def START_MARKERS : List Str := [lit ".......... START ..........", lit "<response>"]

/-- `FileProcessor.END_MARKERS`. -/
def END_MARKERS : List Str := [lit ".......... END ..........", lit "</response>"]

/-- `FileProcessor._has_markers`: some line strips to a start or end marker. -/
def has_markers (content : Str) : Bool :=
  (splitlines content).any
    (fun l => decide (pstrip l ∈ START_MARKERS) || decide (pstrip l ∈ END_MARKERS))

/-- The loop body of `FileProcessor._process_content`: scan the lines with a
`keep_mode` flag, collecting kept lines, and report whether a start marker
was ever seen (`found_start`). -/
def markerScan : List Str → Bool → List Str × Bool
  | [], _ => ([], false)
  | line :: rest, keepMode =>
    let st := pstrip line
    if st ∈ START_MARKERS then
      let r := markerScan rest true
      (r.1, true)
    else if st ∈ END_MARKERS then
      markerScan rest false
    else
      let r := markerScan rest keepMode
      (if keepMode then line :: r.1 else r.1, r.2)

/-- `FileProcessor._process_content`: keep only lines between markers;
if no start marker was found, return the original content verbatim. -/
def process_content (content : Str) : Str :=
  let lines := splitlinesKeepends content
  let r := markerScan lines false
  if r.2 then r.1.flatten else content

/-- The number of leading `'\n'` characters of a string
(the counting loop in `NewlinePaddingStrategy.process`). -/
def leadingNewlines : Str → Nat
  | [] => 0
  | c :: rest => if c = '\n' then leadingNewlines rest + 1 else 0

/-- `NewlinePaddingStrategy.process`: ensure the content starts with at
least `n` newline characters. -/
def NewlinePaddingStrategy.process (n : Nat) (content : Str) : Str :=
  if content = [] then List.replicate n '\n'
  else if n ≤ leadingNewlines content then content
  else List.replicate (n - leadingNewlines content) '\n' ++ content

/-- ASCII decimal digit (the `\d` class of the age regex, ASCII fragment). -/
def isDigit (c : Char) : Bool := '0' ≤ c && c ≤ '9'

/-- The regex class `[smhdw]` of `AgeParser.parse_age`. -/
def isUnit (c : Char) : Bool :=
  c = 's' || c = 'm' || c = 'h' || c = 'd' || c = 'w'

/-- `AgeParser.TIME_UNITS`: seconds per unit. -/
def TIME_UNITS (u : Char) : Option Int :=
  if u = 's' then some 1
  else if u = 'm' then some 60
  else if u = 'h' then some 3600
  else if u = 'd' then some 86400
  else if u = 'w' then some 604800
  else none

/-- The tail of the age regex after the number: `([smhdw])$`.  Python's `$`
(without `re.MULTILINE`) also matches just before a single trailing
newline, so `[u]` and `[u, '\n']` are both accepted. -/
def unitEnd (d f : Str) (r : Str) : Option (Str × Str × Char) :=
  match r with
  | [u] => if isUnit u then some (d, f, u) else none
  | [u, c] => if isUnit u && c = '\n' then some (d, f, u) else none
  | _ => none

/-- `re.match(r"^(\d+(?:\.\d+)?)([smhdw])$", s)`: on success returns the
integer digits, the fraction digits (possibly empty) and the unit. -/
def parseAgeMatch (s : Str) : Option (Str × Str × Char) :=
  let d := s.takeWhile isDigit
  let r := s.dropWhile isDigit
  if d = [] then none
  else
    match r with
    | '.' :: r2 =>
      let f := r2.takeWhile isDigit
      let r3 := r2.dropWhile isDigit
      if f = [] then none else unitEnd d f r3
    | _ => unitEnd d [] r

/-- Numeric value of a digit string. -/
def digitsVal (d : Str) : Nat :=
  d.foldl (fun a c => a * 10 + (c.toNat - '0'.toNat)) 0

/-- The exact value of the decimal literal with integer digits `d` and
fraction digits `f` (Python's `float(value)`, modelled exactly as a
rational). -/
def decimalVal (d f : Str) : ℚ :=
  (digitsVal d : ℚ) + (digitsVal f : ℚ) / (10 ^ f.length)

/-- The two error classes raised by `AgeParser.parse_age`. -/
inductive AgeError where
  | invalidFormat : AgeError
  | unknownUnit : AgeError
deriving DecidableEq

/-- `AgeParser.parse_age`: lowercase the input, match the age regex, look
the unit up in `TIME_UNITS` and return `float(value) * multiplier`. -/
def parse_age (s : Str) : Except AgeError ℚ :=
  match parseAgeMatch (lowerStr s) with
  | none => .error .invalidFormat
  | some (d, f, u) =>
    match TIME_UNITS u with
    | none => .error .unknownUnit
    | some mult => .ok (decimalVal d f * (mult : ℚ))

/-- The literal part of the `CLAUDE_THREAD_TITLE` patterns, lowercased for
the `re.IGNORECASE` comparison (20 characters). -/
def titleLit : Str := lit "claude_thread_title:"

/-- The tail of `FileRenamerStrategy.thread_title_pattern` after the
literal: `\s*(.+?)(?:\n|$)`.  `\s*` is greedy, `.+?` is lazy and cannot
cross a newline, and `(?:\n|$)` consumes a newline or matches at end of
string.  Returns the captured group and the remainder of the string after
the match.  When everything after the literal is whitespace, the greedy
`\s*` backtracks until `.+?` can capture the last non-newline character. -/
def titleTail (rest : Str) : Option (Str × Str) :=
  let B := rest.dropWhile isSpacePy
  match B with
  | [] =>
    let revWs := rest.reverse
    let k := (revWs.takeWhile (fun c => c = '\n')).length
    match revWs.drop k with
    | [] => none
    | c :: _ => some ([c], if k = 0 then [] else List.replicate (k - 1) '\n')
  | _ :: _ =>
    let C := B.takeWhile (fun c => ¬ c = '\n')
    let D := B.dropWhile (fun c => ¬ c = '\n')
    match D with
    | '\n' :: d2 => some (C, d2)
    | _ => some (C, D)

/-- `finditer` of `thread_title_pattern` over the content: the list of
captured groups, non-overlapping, scanning left to right.  The fuel
argument bounds the number of scan steps; every recursive call is on a
strictly shorter string, so `length + 1` fuel is always enough. -/
def titleMatchesAux : Nat → Str → List Str
  | 0, _ => []
  | fuel + 1, s =>
    match s with
    | [] => []
    | _ :: rest =>
      if titleLit.isPrefixOf (lowerStr s) then
        match titleTail (s.drop titleLit.length) with
        | some (g, after) => g :: titleMatchesAux fuel after
        | none => titleMatchesAux fuel rest
      else titleMatchesAux fuel rest

/-- All `CLAUDE_THREAD_TITLE` captured groups in the content. -/
def titleMatches (s : Str) : List Str := titleMatchesAux (s.length + 1) s

/-- `FileRenamerStrategy.TITLE_PLACEHOLDER`. -/
def TITLE_PLACEHOLDER : Str := lit "{title}"

/-- Characters rejected in filenames, replaced by the external
`pathvalidate.sanitize_filename` primitive.  The spec treats filename
sanitization as an external "make this string a valid filename" primitive
(§1); this models its character-replacement contract with
`replacement_text=" "`. -/
def invalidFileChars : List Char := ['\\', '/', ':', '*', '?', '"', '<', '>', '|', '\x00']

/-- Model of the external `pathvalidate.sanitize_filename(title,
replacement_text=" ")` primitive: replace invalid filename characters by a
space. -/
def sanitize_filename (s : Str) : Str :=
  s.map (fun c => if c ∈ invalidFileChars then ' ' else c)

/-- `FileRenamerStrategy._sanitize_filename`: delegate to the external
sanitizer, truncate to 200 characters (right-stripped), strip. -/
def FileRenamerStrategy.sanitizeTitle (title : Str) : Str :=
  if pstrip title = [] then []
  else
    let sanitized := sanitize_filename title
    let sanitized := if 200 < sanitized.length then prstrip (sanitized.take 200) else sanitized
    pstrip sanitized

/-- A filesystem path: directory part plus filename
(`file_path.parent` and `file_path.name`). -/
structure FPath where
  dir : Str
  name : Str
deriving DecidableEq, BEq

/-- The filesystem: file contents and file modification times, both as
association lists keyed by path.  A path missing from `stat` is one whose
modification time cannot be read (`OSError`). -/
structure FS where
  files : List (FPath × Str)
  stat : List (FPath × ℚ)
deriving DecidableEq, BEq

/-- `path.read_text(encoding="utf-8")`: `none` models a raised error. -/
def read_text (fs : FS) (p : FPath) : Option Str := fs.files.lookup p

/-- `path.write_text(content, encoding="utf-8")`. -/
def write_text (fs : FS) (p : FPath) (c : Str) : FS :=
  { fs with files := fs.files.filter (fun e => ¬ e.1 = p) ++ [(p, c)] }

/-- `path.unlink()`: remove a file. -/
def unlinkFS (fs : FS) (p : FPath) : FS :=
  { files := fs.files.filter (fun e => ¬ e.1 = p),
    stat := fs.stat.filter (fun e => ¬ e.1 = p) }

/-- `path.rename(new)`: move the content (and its modification time) to
the new path, replacing any file already there. -/
def renameFS (fs : FS) (o n : FPath) : FS :=
  match read_text fs o with
  | none => fs
  | some c =>
    { files := fs.files.filter (fun e => ¬ e.1 = o ∧ ¬ e.1 = n) ++ [(n, c)],
      stat := fs.stat.filter (fun e => ¬ e.1 = o ∧ ¬ e.1 = n) ++
        (match fs.stat.lookup o with
         | some m => [(n, m)]
         | none => []) }

/-- `FileRenamerStrategy.rename_file`: find the first non-placeholder
`CLAUDE_THREAD_TITLE`, sanitize it, and rename the file on disk to
`<title>.md` next to it, honouring the overwrite policy.  Returns the
updated filesystem together with the value the Python method returns. -/
def FileRenamerStrategy.rename_file (allowOverwrite : Bool) (fs : FS) (p : FPath) :
    FS × Option FPath :=
  match read_text fs p with
  | none => (fs, none)
  | some full =>
    match ((titleMatches full).map pstrip).filter (fun t => ¬ t = TITLE_PLACEHOLDER) with
    | [] => (fs, none)
    | t :: _ =>
      if t = [] then (fs, none)
      else
        let clean := FileRenamerStrategy.sanitizeTitle t
        if clean = [] then (fs, none)
        else
          let newPath : FPath := ⟨p.dir, clean ++ lit ".md"⟩
          if newPath = p then (fs, some p)
          else if (read_text fs newPath).isSome then
            if ¬ allowOverwrite then (fs, none)
            else (renameFS (unlinkFS fs newPath) p newPath, some newPath)
          else (renameFS fs p newPath, some newPath)

/-- The tail of `FileRenamerStrategy.thread_title_line_pattern` after the
literal: `\s*.+?$` under `re.MULTILINE`, where `$` is zero-width.  Returns
the number of characters the match consumes after the literal, or `none`
if no match is possible here. -/
def lineTail (rest : Str) : Option Nat :=
  let A := rest.takeWhile isSpacePy
  let B := rest.dropWhile isSpacePy
  match B with
  | [] =>
    let k := ((rest.reverse).takeWhile (fun c => c = '\n')).length
    if k = rest.length then none else some (rest.length - k)
  | _ :: _ => some (A.length + (B.takeWhile (fun c => ¬ c = '\n')).length)

/-- `thread_title_line_pattern.sub("", s)`: remove every match of
`^CLAUDE_THREAD_TITLE:\s*.+?$` (`re.IGNORECASE | re.MULTILINE`).
`atStart` records whether the current position is at the start of the
string or just after a newline (where `^` matches).  Fuel bounds the scan;
each recursive call is on a strictly shorter string. -/
def subTitleAux : Nat → Str → Bool → Str
  | 0, s, _ => s
  | fuel + 1, s, atStart =>
    match s with
    | [] => []
    | c :: rest =>
      if atStart && titleLit.isPrefixOf (lowerStr s) then
        match lineTail (s.drop titleLit.length) with
        | some k => subTitleAux fuel (s.drop (titleLit.length + k)) false
        | none => c :: subTitleAux fuel rest (c = '\n')
      else c :: subTitleAux fuel rest (c = '\n')

/-- Remove every `CLAUDE_THREAD_TITLE` line match from the content. -/
def subTitleLines (s : Str) : Str := subTitleAux (s.length + 1) s true

/-- `re.sub(r"\n{3,}", "\n\n", s)`: collapse runs of three or more
newlines down to exactly two.  Fuel bounds the scan. -/
def collapseAux : Nat → Str → Str
  | 0, s => s
  | fuel + 1, s =>
    match s with
    | [] => []
    | c :: rest =>
      if c = '\n' then
        let run := 1 + (rest.takeWhile (fun x => x = '\n')).length
        let rest2 := rest.dropWhile (fun x => x = '\n')
        (if 3 ≤ run then ['\n', '\n'] else List.replicate run '\n') ++ collapseAux fuel rest2
      else c :: collapseAux fuel rest

/-- Collapse 3-or-more consecutive newlines to exactly 2. -/
def collapseNewlines (s : Str) : Str := collapseAux (s.length + 1) s

/-- `FileRenamerStrategy.process`: remove `CLAUDE_THREAD_TITLE` lines and
collapse leftover blank runs. -/
def FileRenamerStrategy.process (content : Str) : Str :=
  if content = [] then content
  else collapseNewlines (subTitleLines content)

/-- The lowercased literal of `ClaudeUrlStrategy.claude_url_pattern`
(18 characters). -/
def claudeLit : Str := lit "claude discussion:"

/-- The lowercased URL literal `https://claude\.ai/chat/` (23 characters). -/
def urlLit : Str := lit "https://claude.ai/chat/"

/-- The class `[a-f0-9-]` under `re.IGNORECASE`. -/
def isUrlBodyChar (c : Char) : Bool :=
  ('a' ≤ c && c ≤ 'f') || ('A' ≤ c && c ≤ 'F') || ('0' ≤ c && c ≤ '9') || c = '-'

/-- Try to match `Claude discussion:\s*(https://claude\.ai/chat/[a-f0-9-]+)`
at the current position; return the captured group (in original case). -/
def tryUrlAt (s : Str) : Option Str :=
  if claudeLit.isPrefixOf (lowerStr s) then
    let afterWs := (s.drop claudeLit.length).dropWhile isSpacePy
    if urlLit.isPrefixOf (lowerStr afterWs) then
      let body := (afterWs.drop urlLit.length).takeWhile isUrlBodyChar
      if body = [] then none else some (afterWs.take urlLit.length ++ body)
    else none
  else none

/-- `claude_url_pattern.search`: first match, scanning left to right.
Fuel bounds the scan. -/
def urlSearchAux : Nat → Str → Option Str
  | 0, _ => none
  | fuel + 1, s =>
    match s with
    | [] => none
    | _ :: rest =>
      match tryUrlAt s with
      | some g => some g
      | none => urlSearchAux fuel rest

/-- Five newlines of spacing around the prepended URL. -/
def nl5 : Str := List.replicate 5 '\n'

/-- `ClaudeUrlStrategy.process`: re-read the original file, search it for a
Claude discussion URL, and prepend the URL to the content; read errors are
swallowed. -/
def ClaudeUrlStrategy.process (fs : FS) (content : Str) (p : FPath) : Str :=
  match read_text fs p with
  | none => content
  | some full =>
    match urlSearchAux (full.length + 1) full with
    | none => content
    | some url =>
      let u := pstrip url
      if ¬ pstrip content = [] then nl5 ++ u ++ nl5 ++ content else u

/-- The registered strategies, as a closed datatype: `file_renamer` carries
its `allow_overwrite` configuration and `newline_padding` its count. -/
inductive Strategy where
  | fileRenamer (allowOverwrite : Bool) : Strategy
  | claudeUrl : Strategy
  | newlinePadding (n : Nat) : Strategy
deriving DecidableEq, BEq

/-- `FileProcessingStrategy.is_renaming_strategy`. -/
def Strategy.isRenamingStrategy : Strategy → Bool
  | .fileRenamer _ => true
  | _ => false

/-- `FileProcessingStrategy.process` dispatch. -/
def Strategy.processContent (s : Strategy) (fs : FS) (content : Str) (p : FPath) : Str :=
  match s with
  | .fileRenamer _ => FileRenamerStrategy.process content
  | .claudeUrl => ClaudeUrlStrategy.process fs content p
  | .newlinePadding n => NewlinePaddingStrategy.process n content

/-- `FileProcessingStrategy.rename_file` dispatch: the base class returns
`None` and touches nothing. -/
def Strategy.renameFile (s : Strategy) (fs : FS) (p : FPath) : FS × Option FPath :=
  match s with
  | .fileRenamer ao => FileRenamerStrategy.rename_file ao fs p
  | _ => (fs, none)

/-- The `FileProcessor` configuration: the resolved strategy list and the
optional age filter in seconds. -/
structure FileProcessor where
  strategies : List Strategy
  age_filter : Option ℚ

/-- `FileProcessor._meets_age_criteria`: with no filter every file
qualifies; otherwise the file's age (`now` minus its modification time)
must be at most the filter, and a file whose modification time cannot be
read does not qualify. -/
def meets_age_criteria (fp : FileProcessor) (now : ℚ) (fs : FS) (p : FPath) : Bool :=
  match fp.age_filter with
  | none => true
  | some a =>
    match fs.stat.lookup p with
    | none => false
    | some m => decide (now - m ≤ a)

/-- The strategy loop of `FileProcessor.needs_processing`: for a renaming
strategy it calls the strategy's real `rename_file` (threading the
filesystem it may mutate) and reports `true` when the returned path
differs; for a content strategy it compares `process` output with the raw
content. -/
def needsLoop : List Strategy → FS → Str → FPath → FS × Bool
  | [], fs, _, _ => (fs, false)
  | s :: rest, fs, content, p =>
    if s.isRenamingStrategy then
      match s.renameFile fs p with
      | (fs2, some q) => if ¬ q = p then (fs2, true) else needsLoop rest fs2 content p
      | (fs2, none) => needsLoop rest fs2 content p
    else
      if ¬ s.processContent fs content p = content then (fs, true)
      else needsLoop rest fs content p

/-- `FileProcessor.needs_processing`: age gate, then marker test, then the
strategy probe.  A read failure is caught and reported as `false`.  The
filesystem is threaded through because the probe calls the strategies'
real `rename_file`. -/
def needs_processing (fp : FileProcessor) (now : ℚ) (fs : FS) (p : FPath) : FS × Bool :=
  if meets_age_criteria fp now fs p then
    match read_text fs p with
    | none => (fs, false)
    | some content =>
      if has_markers content then (fs, true)
      else needsLoop fp.strategies fs content p
  else (fs, false)

/-- The renaming phase of `FileProcessor.process_file`: apply every
renaming strategy in order, updating the current path and the changed
flag. -/
def applyRenames : List Strategy → FS → FPath → Bool → FS × FPath × Bool
  | [], fs, p, ch => (fs, p, ch)
  | s :: rest, fs, p, ch =>
    if s.isRenamingStrategy then
      match s.renameFile fs p with
      | (fs2, some q) =>
        if ¬ q = p then applyRenames rest fs2 q true else applyRenames rest fs2 p ch
      | (fs2, none) => applyRenames rest fs2 p ch
    else applyRenames rest fs p ch

/-- The content phase of `FileProcessor.process_file`: thread the content
through every non-renaming strategy, passing the current path. -/
def applyContentStrategies : List Strategy → FS → Str → FPath → Str
  | [], _, c, _ => c
  | s :: rest, fs, c, p =>
    if ¬ s.isRenamingStrategy then
      applyContentStrategies rest fs (s.processContent fs c p) p
    else applyContentStrategies rest fs c p

/-- `FileProcessor.process_file`: read, apply renaming strategies, extract
markers from the original content, apply content strategies, and write the
result only if it differs from the original.  `none` models a raised
error (read failure). -/
def process_file (fp : FileProcessor) (fs : FS) (p : FPath) : Option (FS × Bool) :=
  match read_text fs p with
  | none => none
  | some original =>
    let r := applyRenames fp.strategies fs p false
    let extracted := process_content original
    let final := applyContentStrategies fp.strategies r.1 extracted r.2.1
    if ¬ final = original then some (write_text r.1 r.2.1 final, true)
    else some (r.1, r.2.2)

/-- The ordered listing of a directory as walked by `FileFinder`: a
sequence of entries, each a regular file with an optional modification
time (`none` models an unreadable stat) or a subdirectory with its own
listing.  The sequence is fused into one inductive (instead of a nested
`List`) so that the walk below is structural recursion. -/
inductive FSEntries where
  | nil : FSEntries
  | fileEntry (name : Str) (mtime : Option ℚ) (rest : FSEntries) : FSEntries
  | dirEntry (name : Str) (children : FSEntries) (rest : FSEntries) : FSEntries

/-- A root path given to `FileFinder.find_files`: an existing regular
file, an existing directory, or a missing path (warned and skipped). -/
inductive RootPath where
  | file (absPath : Str) (mtime : Option ℚ) : RootPath
  | dir (absPath : Str) (children : FSEntries) : RootPath
  | missing (pathStr : Str) : RootPath

/-- The `FileFinder` configuration. -/
structure FileFinder where
  extension : Str
  excludes : List Str
  age_filter : Option ℚ

/-- `pathlib.Path.name`: the final path component. -/
def basename (s : Str) : Str :=
  (s.reverse.takeWhile (fun c => ¬ c = '/')).reverse

/-- `FileFinder._should_exclude_directory`: the absolute path string
contains some exclude substring. -/
def should_exclude_directory (ff : FileFinder) (absPath : Str) : Bool :=
  ff.excludes.any (fun e => strContains absPath e)

/-- `FileFinder._should_process_file`: extension suffix match, then the
age gate (files whose modification time cannot be read are excluded). -/
def should_process_file (ff : FileFinder) (now : ℚ) (name : Str) (mtime : Option ℚ) : Bool :=
  if ¬ ('.' :: ff.extension).isSuffixOf name then false
  else
    match ff.age_filter with
    | none => true
    | some a =>
      match mtime with
      | none => false
      | some m => decide (now - m ≤ a)

/-- `FileFinder._find_files_in_directory`: walk the entries in order;
matching files are collected, subdirectories are recursed into unless
their absolute path is excluded. -/
def findInDir (ff : FileFinder) (now : ℚ) : Str → FSEntries → List Str
  | _, .nil => []
  | absPath, .fileEntry name mt rest =>
    (if should_process_file ff now name mt then [absPath ++ '/' :: name] else []) ++
      findInDir ff now absPath rest
  | absPath, .dirEntry name cs rest =>
    (if should_exclude_directory ff (absPath ++ '/' :: name) then []
     else findInDir ff now (absPath ++ '/' :: name) cs) ++
      findInDir ff now absPath rest

/-- `FileFinder.find_files`: a root file is tested directly against the
selection predicate; a root directory is walked with no exclusion check on
the root itself; a missing root contributes nothing. -/
def find_files (ff : FileFinder) (now : ℚ) (roots : List RootPath) : List Str :=
  roots.flatMap fun r =>
    match r with
    | .file absPath mt =>
      if should_process_file ff now (basename absPath) mt then [absPath] else []
    | .dir absPath cs => findInDir ff now absPath cs
    | .missing _ => []

/-- `StrategyRegistry.get_strategy`: the catalog seeded with the three
built-ins (`newline_padding` with count 20, `claude_url`, `file_renamer`
with overwrite allowed by default). -/
def get_strategy (name : Str) : Option Strategy :=
  if name = lit "newline_padding" then some (.newlinePadding 20)
  else if name = lit "claude_url" then some .claudeUrl
  else if name = lit "file_renamer" then some (.fileRenamer true)
  else none

/-- `StrategyRegistry.get_strategies_by_names`: resolve each name,
silently skipping unknown ones. -/
def get_strategies_by_names (names : List Str) : List Strategy :=
  names.filterMap get_strategy

/-- The strategy-resolution policy of `CLIHandler.handle_cleanmarkers`:
with no explicit names, the defaults `[file_renamer, claude_url]` (or just
`[file_renamer]` when claude_url is disabled); with explicit names,
resolve them and insert `claude_url` at the front unless it is disabled or
the user already named it. -/
def resolveStrategies (userNames : List Str) (noClaudeUrl : Bool) : List Strategy :=
  if userNames.isEmpty then
    if ¬ noClaudeUrl then [.fileRenamer true, .claudeUrl] else [.fileRenamer true]
  else
    let strats := get_strategies_by_names userNames
    if ¬ noClaudeUrl ∧ ¬ lit "claude_url" ∈ userNames then .claudeUrl :: strats
    else strats

/-- The fraction digits of the decimal's fractional part (`'.' :: f2`
yields `f2`, anything else yields no digits). -/
def fracDigits : Str → Str
  | '.' :: f2 => f2
  | _ => []

/-- Seconds per unit, as a total function on the five units. -/
def unitSeconds (u : Char) : Int :=
  if u = 's' then 1
  else if u = 'm' then 60
  else if u = 'h' then 3600
  else if u = 'd' then 86400
  else 604800

/-- Acceptance condition of `parse_age`, stated from the spec's words as
amended: the lowercased input decomposes as nonempty digits, an optional
`.`-plus-nonempty-digits fraction, a unit letter, and an optional single
trailing newline (the Python `$` artifact); the value is the exact decimal
times the unit's seconds. -/
def AgeSpecOk (s : Str) (v : ℚ) : Prop :=
  ∃ d fpart t : Str, ∃ u : Char,
    lowerStr s = d ++ (fpart ++ u :: t) ∧ ¬ d = [] ∧ (∀ c ∈ d, isDigit c) ∧
    (fpart = [] ∨ ∃ f2, fpart = '.' :: f2 ∧ ¬ f2 = [] ∧ (∀ c ∈ f2, isDigit c)) ∧
    isUnit u = true ∧ (t = [] ∨ t = ['\n']) ∧
    v = decimalVal d (fracDigits fpart) * ((unitSeconds u : Int) : ℚ)

/-- A sample path `/docs/a.md`. -/
def titlePath : FPath := ⟨lit "/docs", lit "a.md"⟩

/-- A sample content with a `CLAUDE_THREAD_TITLE` line and no markers. -/
def titleContent : Str := lit "CLAUDE_THREAD_TITLE: My Title\nbody\n"

/-- A filesystem holding only the sample file. -/
def titleFS : FS := ⟨[(titlePath, titleContent)], []⟩

/-- A processor configured with the single strategy list `[file_renamer]`
and no age filter. -/
def renamerOnly : FileProcessor := ⟨[.fileRenamer true], none⟩

/-- A sample path `/docs/b.md`. -/
def endMarkerPath : FPath := ⟨lit "/docs", lit "b.md"⟩

/-- A sample content containing an end-marker line but no start marker. -/
def endMarkerContent : Str := lit "</response>\nbody\n"

/-- A filesystem holding only the end-marker file. -/
def endMarkerFS : FS := ⟨[(endMarkerPath, endMarkerContent)], []⟩

/-- Helper: if no line strips to a start marker, the scan never reports a
found start. -/
theorem markerScan_no_start (lines : List Str) (k : Bool)
    (h : ∀ l ∈ lines, pstrip l ∉ START_MARKERS) : (markerScan lines k).2 = false := by
  induction lines generalizing k with
  | nil => rfl
  | cons a rest ih =>
    have ha : pstrip a ∉ START_MARKERS := h a (by simp)
    have hrest : ∀ l ∈ rest, pstrip l ∉ START_MARKERS := fun l hl => h l (by simp [hl])
    unfold markerScan
    simp only [if_neg ha]
    by_cases he : pstrip a ∈ END_MARKERS
    · simp only [if_pos he]
      exact ih false hrest
    · simp only [if_neg he]
      exact ih k hrest

/-- C7: for content in which no line strips to a recognized start marker,
marker extraction returns the original content unchanged, even when
end-marker lines are present. -/
theorem process_content_no_start_identity (content : Str)
    (h : ∀ l ∈ splitlinesKeepends content, pstrip l ∉ START_MARKERS) :
    process_content content = content := by
  unfold process_content
  simp only [markerScan_no_start (splitlinesKeepends content) false h]
  rfl

/-- Witness for C7: a content whose only special line is an end marker is
returned byte-for-byte. -/
theorem process_content_no_start_identity_witness :
    process_content (lit "</response>\nkeep\n") = lit "</response>\nkeep\n" :=
  process_content_no_start_identity (lit "</response>\nkeep\n") (by decide)

/-- Helper: leading-newline count of a replicate-prefix. -/
theorem leadingNewlines_replicate_append (k : Nat) (c : Str) :
    leadingNewlines (List.replicate k '\n' ++ c) = k + leadingNewlines c := by
  induction k with
  | zero => simp
  | succ n ih =>
    rw [List.replicate_succ, List.cons_append]
    show (if '\n' = '\n' then leadingNewlines (List.replicate n '\n' ++ c) + 1 else 0) = _
    rw [if_pos rfl, ih]
    omega

/-- Helper: a nonempty string with at least `n` leading newlines is a
fixed point of `newline_padding(n)`. -/
theorem newline_padding_fixed (n : Nat) (s : Str) (hne : ¬ s = [])
    (hge : n ≤ leadingNewlines s) : NewlinePaddingStrategy.process n s = s := by
  simp [NewlinePaddingStrategy.process, hne, hge]

/-- C8: `newline_padding(n)` is idempotent, pads to at least `n` leading
newlines, to exactly `n` when the input had fewer, and turns empty input
into exactly `n` newlines. -/
theorem newline_padding_clamps (n : Nat) (c : Str) :
    NewlinePaddingStrategy.process n (NewlinePaddingStrategy.process n c) =
      NewlinePaddingStrategy.process n c ∧
    n ≤ leadingNewlines (NewlinePaddingStrategy.process n c) ∧
    (leadingNewlines c < n → leadingNewlines (NewlinePaddingStrategy.process n c) = n) ∧
    (c = [] → NewlinePaddingStrategy.process n c = List.replicate n '\n') := by
  have hrep : ∀ m : Nat, leadingNewlines (List.replicate m '\n') = m := by
    intro m
    simpa using leadingNewlines_replicate_append m []
  by_cases hc : c = []
  · subst hc
    have hout : NewlinePaddingStrategy.process n ([] : Str) = List.replicate n '\n' := by
      simp [NewlinePaddingStrategy.process]
    refine ⟨?_, ?_, ?_, fun _ => hout⟩
    · rw [hout]
      by_cases hn : n = 0
      · subst hn; simp [NewlinePaddingStrategy.process]
      · exact newline_padding_fixed n _ (by simp [List.replicate_eq_nil_iff, hn])
          (le_of_eq (hrep n).symm)
    · rw [hout, hrep n]
    · intro _; rw [hout, hrep n]
  · by_cases hl : n ≤ leadingNewlines c
    · have hout : NewlinePaddingStrategy.process n c = c := by
        simp [NewlinePaddingStrategy.process, hc, hl]
      refine ⟨by rw [hout, hout], by rw [hout]; exact hl,
        fun hlt => absurd hl (by omega), fun h0 => absurd h0 hc⟩
    · push_neg at hl
      have hout : NewlinePaddingStrategy.process n c =
          List.replicate (n - leadingNewlines c) '\n' ++ c := by
        simp [NewlinePaddingStrategy.process, hc, not_le.mpr hl]
      have hcount : leadingNewlines (NewlinePaddingStrategy.process n c) = n := by
        rw [hout, leadingNewlines_replicate_append]
        omega
      have hne : ¬ NewlinePaddingStrategy.process n c = [] := by
        rw [hout]
        intro hcon
        rcases List.append_eq_nil.mp hcon with ⟨-, h2⟩
        exact hc h2
      exact ⟨newline_padding_fixed n _ hne (le_of_eq hcount.symm), by omega,
        fun _ => hcount, fun h0 => absurd h0 hc⟩

/-- Witness for C8: padding `"x"` to three newlines yields exactly three
leading newlines. -/
theorem newline_padding_clamps_witness :
    leadingNewlines (NewlinePaddingStrategy.process 3 (lit "x")) = 3 :=
  (newline_padding_clamps 3 (lit "x")).2.2.1 (by decide)

/-- C1 (failing input): the "needs processing" probe used by `--dry-run`
calls the renaming strategy's real `rename_file`, which performs the
rename on disk: on a file containing `CLAUDE_THREAD_TITLE: My Title` with
strategy list `[file_renamer]`, the probe moves the file to
`My Title.md` — the filesystem after the check differs from the one
before. -/
theorem needs_processing_mutates_filesystem :
    needs_processing renamerOnly 0 titleFS titlePath =
      (⟨[(⟨lit "/docs", lit "My Title.md"⟩, titleContent)], []⟩, true) ∧
    ¬ (needs_processing renamerOnly 0 titleFS titlePath).1 = titleFS := by
  decide

/-- C2 (failing input): `process_file` on a file with
`CLAUDE_THREAD_TITLE: My Title`, no markers, and strategy list
`[file_renamer]` renames the file to `My Title.md` but the content on disk
still contains the title line (no write occurs), because the pipeline only
invokes `process` on non-renaming strategies; the renamer's own `process`
method — which would have removed the line — is never called. -/
theorem process_file_keeps_title_line :
    process_file renamerOnly titleFS titlePath =
      some (⟨[(⟨lit "/docs", lit "My Title.md"⟩, titleContent)], []⟩, true) ∧
    ¬ FileRenamerStrategy.process titleContent = titleContent := by
  decide

/-- C10: a file whose content has an end-marker line but no start marker,
with an empty strategy list, is reported as needing processing by the
dry-run probe, yet the real run changes nothing and returns `false`. -/
theorem dry_run_overreports :
    needs_processing ⟨[], none⟩ 0 endMarkerFS endMarkerPath = (endMarkerFS, true) ∧
    process_file ⟨[], none⟩ endMarkerFS endMarkerPath = some (endMarkerFS, false) := by
  decide

/-- C3 (counterexample): a root directory whose absolute path contains an
exclude substring is not pruned — `find_files` returns the matching file
under it. -/
theorem find_files_excluded_root_not_pruned :
    should_exclude_directory ⟨lit "md", [lit "skip"], none⟩ (lit "/skip") = true ∧
    find_files ⟨lit "md", [lit "skip"], none⟩ 0
      [.dir (lit "/skip") (.fileEntry (lit "a.md") none .nil)] = [lit "/skip/a.md"] := by
  decide

/-- C3 (amended): a subdirectory reached by recursion whose absolute path
contains an exclude substring is pruned entirely — it is not descended
into and contributes no paths to the result. -/
theorem excluded_subdirectory_pruned (ff : FileFinder) (now : ℚ) (absPath name : Str)
    (cs rest : FSEntries)
    (h : should_exclude_directory ff (absPath ++ '/' :: name) = true) :
    findInDir ff now absPath (.dirEntry name cs rest) = findInDir ff now absPath rest := by
  show (if should_exclude_directory ff (absPath ++ '/' :: name) = true then []
     else findInDir ff now (absPath ++ '/' :: name) cs) ++
      findInDir ff now absPath rest = findInDir ff now absPath rest
  rw [h]
  simp

/-- Witness for C3: an excluded subdirectory containing a matching file
contributes nothing. -/
theorem excluded_subdirectory_pruned_witness :
    findInDir ⟨lit "md", [lit "skip"], none⟩ 0 (lit "/r")
      (.dirEntry (lit "skip") (.fileEntry (lit "a.md") none .nil) (.fileEntry (lit "b.md") none .nil)) =
    findInDir ⟨lit "md", [lit "skip"], none⟩ 0 (lit "/r") (.fileEntry (lit "b.md") none .nil) :=
  excluded_subdirectory_pruned _ 0 _ _ _ _ (by decide)

/-- C5: explicitly naming `claude_url` together with `--no-claude-url`
yields a list containing `claude_url` exactly once; in general, for an
explicit selection the default `claude_url` is prepended exactly when it
is not disabled and not already named by the user. -/
theorem resolve_claude_url_policy :
    (resolveStrategies [lit "claude_url"] true).count Strategy.claudeUrl = 1 ∧
    ∀ (names : List Str) (dis : Bool), ¬ names = [] →
      resolveStrategies names dis =
        (if ¬ dis = true ∧ ¬ lit "claude_url" ∈ names
         then Strategy.claudeUrl :: get_strategies_by_names names
         else get_strategies_by_names names) := by
  constructor
  · decide
  · intro names dis h
    unfold resolveStrategies
    rw [if_neg (by simpa [List.isEmpty_iff] using h)]

/-- Witness for C5: selecting only `file_renamer` with claude_url enabled
prepends `claude_url`. -/
theorem resolve_claude_url_policy_witness :
    resolveStrategies [lit "file_renamer"] false = [Strategy.claudeUrl, .fileRenamer true] := by
  rw [resolve_claude_url_policy.2 [lit "file_renamer"] false (by decide)]
  decide

/-- C6: `process_file` writes the file exactly when the fully transformed
content differs from the originally read content; when they are equal,
the filesystem after the run is exactly the one left by the renaming
phase (no write). -/
theorem process_file_writes_only_if_changed (fp : FileProcessor) (fs : FS) (p : FPath)
    (original : Str) (h : read_text fs p = some original) :
    (applyContentStrategies fp.strategies (applyRenames fp.strategies fs p false).1
        (process_content original) (applyRenames fp.strategies fs p false).2.1 = original →
      process_file fp fs p =
        some ((applyRenames fp.strategies fs p false).1,
          (applyRenames fp.strategies fs p false).2.2)) ∧
    (¬ applyContentStrategies fp.strategies (applyRenames fp.strategies fs p false).1
        (process_content original) (applyRenames fp.strategies fs p false).2.1 = original →
      process_file fp fs p =
        some (write_text (applyRenames fp.strategies fs p false).1
          (applyRenames fp.strategies fs p false).2.1
          (applyContentStrategies fp.strategies (applyRenames fp.strategies fs p false).1
            (process_content original) (applyRenames fp.strategies fs p false).2.1), true)) := by
  unfold process_file
  rw [h]
  constructor
  · intro he
    simp only [he, not_true_eq_false, if_neg]
    simp
  · intro hne
    simp only [if_pos hne]

/-- Witness for C6: with no strategies and unmarked content the transform
is the identity and no write occurs. -/
theorem process_file_writes_only_if_changed_witness :
    process_file ⟨[], none⟩ ⟨[(titlePath, lit "hello\n")], []⟩ titlePath =
      some (⟨[(titlePath, lit "hello\n")], []⟩, false) :=
  (process_file_writes_only_if_changed ⟨[], none⟩ ⟨[(titlePath, lit "hello\n")], []⟩
    titlePath (lit "hello\n") (by decide)).1 (by decide)

/-- C9: with an age filter configured, `needs_processing` answers `false`
for every file that is strictly older than the threshold — and for every
file whose modification time cannot be read, since then the hypothesis
holds vacuously — regardless of markers or strategies. -/
theorem needs_processing_age_filtered (fp : FileProcessor) (now a : ℚ) (fs : FS) (p : FPath)
    (hf : fp.age_filter = some a)
    (h : ∀ m : ℚ, fs.stat.lookup p = some m → a < now - m) :
    needs_processing fp now fs p = (fs, false) := by
  have hm : meets_age_criteria fp now fs p = false := by
    unfold meets_age_criteria
    rw [hf]
    cases hl : fs.stat.lookup p with
    | none => rfl
    | some m => simp [not_le.mpr (h m hl)]
  unfold needs_processing
  rw [hm]
  simp

/-- Witness for C9: a file 100 seconds old against a 5-second filter is
reported as not needing processing, markers notwithstanding. -/
theorem needs_processing_age_filtered_witness :
    needs_processing ⟨[], some 5⟩ 100 ⟨[(titlePath, endMarkerContent)], [(titlePath, 0)]⟩
      titlePath = (⟨[(titlePath, endMarkerContent)], [(titlePath, 0)]⟩, false) :=
  needs_processing_age_filtered _ 100 5 _ titlePath rfl (by
    intro m hm
    rw [show (⟨[(titlePath, endMarkerContent)], [(titlePath, 0)]⟩ : FS).stat.lookup titlePath =
      some (0 : ℚ) from rfl] at hm
    cases hm
    norm_num)

/-- Helper: `takeWhile`/`dropWhile` split an append at the first element
failing the predicate. -/
theorem takeWhile_append_all (p : Char → Bool) (d r : Str)
    (hd : ∀ c ∈ d, p c = true) (hr : ∀ c r2, r = c :: r2 → p c = false) :
    (d ++ r).takeWhile p = d ∧ (d ++ r).dropWhile p = r := by
  induction d with
  | nil =>
    simp only [List.nil_append]
    cases r with
    | nil => simp
    | cons c r2 =>
      have hc := hr c r2 rfl
      simp [List.takeWhile_cons, List.dropWhile_cons, hc]
  | cons a d ih =>
    have ha := hd a (by simp)
    have hd2 : ∀ c ∈ d, p c = true := fun c hc => hd c (by simp [hc])
    rcases ih hd2 with ⟨h1, h2⟩
    simp [List.takeWhile_cons, List.dropWhile_cons, ha, h1, h2]

/-- Helper: inversion of the regex tail `([smhdw])$`. -/
theorem unitEnd_eq_some (d f r d2 f2 : Str) (u : Char)
    (h : unitEnd d f r = some (d2, f2, u)) :
    d2 = d ∧ f2 = f ∧ isUnit u = true ∧ (r = [u] ∨ r = [u, '\n']) := by
  match r with
  | [] => exact absurd h (by simp [unitEnd])
  | [a] =>
    by_cases ha : isUnit a = true
    · rw [show unitEnd d f [a] = some (d, f, a) from by simp [unitEnd, ha]] at h
      injection h with h1
      injection h1 with e1 h2
      injection h2 with e2 e3
      exact ⟨e1.symm, e2.symm, e3 ▸ ha, Or.inl (by rw [e3])⟩
    · exact absurd h (by simp [unitEnd, ha])
  | [a, b] =>
    by_cases hab : (isUnit a && b = '\n') = true
    · rw [show unitEnd d f [a, b] = some (d, f, a) from by simp [unitEnd, hab]] at h
      rcases Bool.and_eq_true_iff.mp hab with ⟨ha, hb⟩
      injection h with h1
      injection h1 with e1 h2
      injection h2 with e2 e3
      refine ⟨e1.symm, e2.symm, e3 ▸ ha, Or.inr ?_⟩
      rw [e3]
      simp only [decide_eq_true_eq] at hb
      rw [hb]
    · exact absurd h (by simp [unitEnd, hab])
  | a :: b :: c :: r3 => exact absurd h (by simp [unitEnd])

/-- Helper: the five unit letters. -/
theorem isUnit_cases (u : Char) (h : isUnit u = true) :
    u = 's' ∨ u = 'm' ∨ u = 'h' ∨ u = 'd' ∨ u = 'w' := by
  have h2 : (((u = 's' ∨ u = 'm') ∨ u = 'h') ∨ u = 'd') ∨ u = 'w' := by
    simpa [isUnit, Bool.or_eq_true, decide_eq_true_eq] using h
  tauto

/-- Helper: unit letters are not digits. -/
theorem isUnit_not_digit (u : Char) (h : isUnit u = true) : isDigit u = false := by
  rcases isUnit_cases u h with h | h | h | h | h <;> subst h <;> decide

/-- Helper: every matched unit is in the `TIME_UNITS` table. -/
theorem TIME_UNITS_of_isUnit (u : Char) (h : isUnit u = true) :
    TIME_UNITS u = some (unitSeconds u) := by
  rcases isUnit_cases u h with h | h | h | h | h <;> subst h <;> decide

/-- Helper: soundness of the age regex matcher — a successful match
decomposes the input. -/
theorem parseAgeMatch_sound (s d f : Str) (u : Char)
    (h : parseAgeMatch s = some (d, f, u)) :
    ∃ fpart t : Str, s = d ++ (fpart ++ u :: t) ∧ ¬ d = [] ∧ (∀ c ∈ d, isDigit c) ∧
      ((fpart = [] ∧ f = []) ∨ (fpart = '.' :: f ∧ ¬ f = [] ∧ (∀ c ∈ f, isDigit c))) ∧
      isUnit u = true ∧ (t = [] ∨ t = ['\n']) := by
  simp only [parseAgeMatch] at h
  have hsd : s = s.takeWhile isDigit ++ s.dropWhile isDigit :=
    (List.takeWhile_append_dropWhile isDigit s).symm
  have hdig : ∀ c ∈ s.takeWhile isDigit, isDigit c = true :=
    fun c hc => List.mem_takeWhile_imp hc
  split at h
  · exact absurd h (by simp)
  · rename_i hd0
    split at h
    · rename_i r2 heq
      split at h
      · exact absurd h (by simp)
      · rename_i hf0
        rcases unitEnd_eq_some _ _ _ _ _ _ h with ⟨e1, e2, hu, hr⟩
        have hr2 : r2 = r2.takeWhile isDigit ++ r2.dropWhile isDigit :=
          (List.takeWhile_append_dropWhile isDigit r2).symm
        have hfd : ∀ c ∈ r2.takeWhile isDigit, isDigit c = true :=
          fun c hc => List.mem_takeWhile_imp hc
        rcases hr with hr | hr
        · refine ⟨'.' :: f, [], ?_, e1 ▸ hd0, e1 ▸ hdig, Or.inr ⟨rfl, e2 ▸ hf0, e2 ▸ hfd⟩,
            hu, Or.inl rfl⟩
          rw [hsd, heq, e1, hr2, hr, e2]
          simp
        · refine ⟨'.' :: f, ['\n'], ?_, e1 ▸ hd0, e1 ▸ hdig, Or.inr ⟨rfl, e2 ▸ hf0, e2 ▸ hfd⟩,
            hu, Or.inr rfl⟩
          rw [hsd, heq, e1, hr2, hr, e2]
          simp
    · rcases unitEnd_eq_some _ _ _ _ _ _ h with ⟨e1, e2, hu, hr⟩
      rcases hr with hr | hr
      · refine ⟨[], [], ?_, e1 ▸ hd0, e1 ▸ hdig, Or.inl ⟨rfl, e2⟩, hu, Or.inl rfl⟩
        rw [hsd, hr, e1]
        rfl
      · refine ⟨[], ['\n'], ?_, e1 ▸ hd0, e1 ▸ hdig, Or.inl ⟨rfl, e2⟩, hu, Or.inr rfl⟩
        rw [hsd, hr, e1]
        rfl

/-- Helper: completeness of the age regex matcher — every decomposition is
matched. -/
theorem parseAgeMatch_complete (d fpart t : Str) (u : Char)
    (hd : ¬ d = []) (hdd : ∀ c ∈ d, isDigit c = true)
    (hf : fpart = [] ∨ ∃ f2, fpart = '.' :: f2 ∧ ¬ f2 = [] ∧ (∀ c ∈ f2, isDigit c = true))
    (hu : isUnit u = true) (ht : t = [] ∨ t = ['\n']) :
    parseAgeMatch (d ++ (fpart ++ u :: t)) = some (d, fracDigits fpart, u) := by
  have hud : isDigit u = false := isUnit_not_digit u hu
  rcases hf with hf | ⟨f2, hf, hf2ne, hf2d⟩
  · subst hf
    have hhead : ∀ c r2, (u :: t : Str) = c :: r2 → isDigit c = false := by
      intro c r2 hc
      cases hc
      exact hud
    have hsplit := takeWhile_append_all isDigit d (u :: t) hdd hhead
    rcases isUnit_cases u hu with h | h | h | h | h <;> subst h <;>
      rcases ht with ht | ht <;> subst ht <;>
      · simp only [parseAgeMatch, List.nil_append]
        rw [hsplit.1, hsplit.2, if_neg hd]
        rfl
  · subst hf
    have hhead : ∀ c r2, ('.' :: (f2 ++ u :: t) : Str) = c :: r2 → isDigit c = false := by
      intro c r2 hc
      cases hc
      decide
    have hsplit := takeWhile_append_all isDigit d ('.' :: (f2 ++ u :: t)) hdd hhead
    have hhead2 : ∀ c r2, (u :: t : Str) = c :: r2 → isDigit c = false := by
      intro c r2 hc
      cases hc
      exact hud
    have hsplit2 := takeWhile_append_all isDigit f2 (u :: t) hf2d hhead2
    rcases isUnit_cases u hu with h | h | h | h | h <;> subst h <;>
      rcases ht with ht | ht <;> subst ht <;>
      · simp only [parseAgeMatch, List.cons_append, List.nil_append]
        rw [hsplit.1, hsplit.2, if_neg hd]
        simp only [List.cons_append]
        rw [hsplit2.1, hsplit2.2, if_neg hf2ne]
        rfl

/-- C4 (counterexample): the age pattern's `$` matches before a trailing
newline, so `"10m\n"` — which is not an exact `<number><unit>` string — is
accepted and parsed as 600 seconds instead of raising `InvalidFormat`. -/
theorem parse_age_trailing_newline_accepted :
    parse_age (lit "10m\n") = .ok 600 := by
  show Except.ok (decimalVal (lit "10") [] * ((60 : Int) : ℚ)) = Except.ok 600
  have h1 : digitsVal (lit "10") = 10 := rfl
  have h0 : digitsVal ([] : Str) = 0 := rfl
  unfold decimalVal
  rw [h1, h0]
  norm_num

/-- C4 (amended): `parse_age` succeeds exactly on the strings whose
lowercasing is `<unsigned decimal><unit>` optionally followed by one
trailing newline, returning the exact decimal value times the unit's
seconds; every other string raises `InvalidFormat` (the defensive
`UnknownUnit` branch is unreachable). -/
theorem parse_age_characterization (s : Str) :
    (∀ v : ℚ, parse_age s = .ok v ↔ AgeSpecOk s v) ∧
    ((∀ v : ℚ, ¬ AgeSpecOk s v) → parse_age s = .error .invalidFormat) := by
  constructor
  · intro v
    constructor
    · intro h
      unfold parse_age at h
      cases hm : parseAgeMatch (lowerStr s) with
      | none => rw [hm] at h; exact absurd h (by simp)
      | some dfu =>
        obtain ⟨d, f, u⟩ := dfu
        rw [hm] at h
        rcases parseAgeMatch_sound _ _ _ _ hm with ⟨fpart, t, hs, hd, hdd, hff, hu, ht⟩
        have h2 : (match TIME_UNITS u with
            | none => Except.error AgeError.unknownUnit
            | some mult => Except.ok (decimalVal d f * (mult : ℚ))) = Except.ok v := h
        rw [TIME_UNITS_of_isUnit u hu] at h2
        injection h2 with hv
        refine ⟨d, fpart, t, u, hs, hd, hdd, ?_, hu, ht, ?_⟩
        · rcases hff with ⟨h1, _⟩ | ⟨h1, h2, h3⟩
          · exact Or.inl h1
          · exact Or.inr ⟨f, h1, h2, h3⟩
        · rw [← hv]
          rcases hff with ⟨h1, h2⟩ | ⟨h1, _, _⟩
          · rw [h1, h2]
            rfl
          · rw [h1]
            rfl
    · rintro ⟨d, fpart, t, u, hs, hd, hdd, hff, hu, ht, hv⟩
      have hm : parseAgeMatch (lowerStr s) = some (d, fracDigits fpart, u) := by
        rw [hs]
        exact parseAgeMatch_complete d fpart t u hd hdd hff hu ht
      simp only [parse_age, hm, TIME_UNITS_of_isUnit u hu]
      rw [hv]
  · intro hno
    cases hm : parseAgeMatch (lowerStr s) with
    | none =>
      unfold parse_age
      rw [hm]
    | some dfu =>
      obtain ⟨d, f, u⟩ := dfu
      rcases parseAgeMatch_sound _ _ _ _ hm with ⟨fpart, t, hs, hd, hdd, hff, hu, ht⟩
      have hspec : AgeSpecOk s (decimalVal d (fracDigits fpart) * ((unitSeconds u : Int) : ℚ)) := by
        refine ⟨d, fpart, t, u, hs, hd, hdd, ?_, hu, ht, rfl⟩
        rcases hff with ⟨h1, _⟩ | ⟨h1, h2, h3⟩
        · exact Or.inl h1
        · exact Or.inr ⟨f, h1, h2, h3⟩
      exact absurd hspec (hno _)

/-- Witness for C4: `"2w"` is accepted with the value `2 * 604800`. -/
theorem parse_age_characterization_witness : AgeSpecOk (lit "2w") (2 * 604800) :=
  ((parse_age_characterization (lit "2w")).1 (2 * 604800)).mp (by
    show Except.ok (decimalVal (lit "2") [] * ((604800 : Int) : ℚ)) = Except.ok (2 * 604800)
    have h1 : digitsVal (lit "2") = 2 := rfl
    have h0 : digitsVal ([] : Str) = 0 := rfl
    unfold decimalVal
    rw [h1, h0]
    norm_num)
